import Mathlib

/-!
Verification of the persistent job-processing core of the scraper repository.

The Python source is embedded shallowly:

* `ProjectRecord` models one entry of `pending_projects.json`
  (`src/src/pending_store.py`).  Every field is optional, mirroring
  `dict.get` on a JSON object; an `id` that is not an `int` is modelled
  as `none`.
* `PendingProjectStore` holds the store operations `_load`,
  `add_or_update_projects`, `get_pending_projects`, `get_project_by_id`
  and `update_project_state`.  Persistence is modelled by a ghost
  counter of `_save` calls (`saves`); `_save` itself catches all I/O
  errors, so it is pure bookkeeping here.
* The downloader retry loop of `src/src/download.py` (lines 66-103) and
  `src/src/project_downloader.py` (lines 76-115) is verbatim-identical
  in both files and is embedded once as `Downloader.attemptLoop`,
  parametrised by the outcome of each `_perform_download_all` attempt.
  The two `download_all_for_project` wrappers differ only in their
  trailing `except` chains and are embedded separately.
* `Phase3.process_single_project` and `Phase3.select_next_project`
  embed `src/phase3_main.py`.  Filesystem-only helpers
  (`build_project_paths`, `cleanup_project_dir`, the metadata txt file)
  have no effect on record state or results and are not modelled; the
  whole metadata phase (navigation, extraction, txt write) is
  abstracted by its only observable outcome `MetaOutcome`, and the
  downloader call by its result `DlResult`.
-/

/-- A JSON record of `pending_projects.json`.  `id` is `some n` exactly
when the stored value is an integer (`isinstance(pid, int)`); the string
fields are `none` when the key is absent. -/
structure ProjectRecord where
  id : Option Int
  url : Option String
  name : Option String
  due_date : Option String
  estado : Option String
deriving DecidableEq, Repr

/-- Incoming item of an `add_or_update_projects` batch; the code reads
exactly the keys `url`, `name` and `due_date`. -/
structure IncomingProject where
  url : Option String
  name : Option String
  due_date : Option String
deriving DecidableEq, Repr

/-- Python truthiness of an optional string: `None` and `""` are falsy. -/
def truthy : Option String → Bool
  | none => false
  | some s => !(s = "")

namespace PendingProjectStore

/-- Possible parsed shapes of the persisted file content. -/
inductive StoredValue
  | list (l : List ProjectRecord)
  | nonList
deriving DecidableEq

/-- State of the persisted file as seen by `_load`: missing, unreadable
(open/read raises), malformed (json.load raises), or parsed content. -/
inductive FileContent
  | absent
  | unreadable
  | malformed
  | value (v : StoredValue)
deriving DecidableEq

/-- `PendingProjectStore._load` (src/src/pending_store.py lines 42-67):
a missing file, a read error, a JSON parse error and a non-list value
all initialise the in-memory collection as empty; a list is taken
as-is.  Every `except` branch swallows the error, so the embedding is a
total function: `_load` never raises. -/
def load : FileContent → List ProjectRecord
  | .absent => []
  | .unreadable => []
  | .malformed => []
  | .value (.list l) => l
  | .value .nonList => []

/-- Insert into the URL index, overwriting an existing binding —
the semantics of `index_by_url[url] = i` on a Python dict. -/
def idxInsert : List (String × Nat) → String → Nat → List (String × Nat)
  | [], k, v => [(k, v)]
  | (k', v') :: rest, k, v =>
    if k' = k then (k, v) :: rest else (k', v') :: idxInsert rest k v

/-- Lookup in the URL index (`url in index_by_url` / `index_by_url[url]`). -/
def idxLookup : List (String × Nat) → String → Option Nat
  | [], _ => none
  | (k', v') :: rest, k => if k' = k then some v' else idxLookup rest k

/-- The dict comprehension building `index_by_url` from the current
projects (src/src/pending_store.py lines 108-112), processing records
in order with position `i`; records with a falsy `url` are skipped and
a later record with the same URL overwrites an earlier binding. -/
def initialIndexAux : List ProjectRecord → Nat → List (String × Nat) → List (String × Nat)
  | [], _, acc => acc
  | p :: rest, i, acc =>
    initialIndexAux rest (i + 1)
      (match p.url with
       | none => acc
       | some u => if u = "" then acc else idxInsert acc u i)

/-- `index_by_url = {p.get("url"): i for i, p in enumerate(self.projects) if p.get("url")}`. -/
def initialIndex (projects : List ProjectRecord) : List (String × Nat) :=
  initialIndexAux projects 0 []

/-- The `max_id` accumulator loop of `add_or_update_projects`
(src/src/pending_store.py lines 115-119): `max_id` starts at 0 and is
raised past every integer `id`. -/
def computeMaxIdAux : Int → List ProjectRecord → Int
  | m, [] => m
  | m, p :: rest =>
    computeMaxIdAux
      (match p.id with
       | some pid => if m < pid then pid else m
       | none => m) rest

/-- Maximum existing integer id, floored at 0 (`max_id = 0` initially). -/
def computeMaxId (projects : List ProjectRecord) : Int :=
  computeMaxIdAux 0 projects

/-- The per-item loop of `add_or_update_projects`
(src/src/pending_store.py lines 124-165).  State: current list, URL
index, `max_id`, `nuevos`, `cambios_en_existentes`.  An item with a
falsy `url` is skipped.  An item whose URL is in the index updates
`name`/`due_date` when truthy, backfills a missing integer `id` from
`max_id + 1`, and sets `cambios_en_existentes = True` unconditionally.
A new URL appends a fresh record with id `max_id + 1`, state
`"pendiente"`, and registers its position in the index.  Index
positions always denote valid list positions at every call site (they
are recorded from actual positions and the list never shrinks), so the
out-of-range lookup branch is unreachable; Python would raise
`IndexError` there. -/
def add_or_update_loop :
    List IncomingProject → List ProjectRecord → List (String × Nat) → Int → Nat → Bool →
    List ProjectRecord × Nat × Bool
  | [], ps, _, _, nuevos, cambios => (ps, nuevos, cambios)
  | p :: rest, ps, idx, maxId, nuevos, cambios =>
    match p.url with
    | none => add_or_update_loop rest ps idx maxId nuevos cambios
    | some u =>
      if u = "" then add_or_update_loop rest ps idx maxId nuevos cambios
      else
        match idxLookup idx u with
        | some i =>
          match ps[i]? with
          | some existing =>
            let name' := if truthy p.name then p.name else existing.name
            let due' := if truthy p.due_date then p.due_date else existing.due_date
            match existing.id with
            | some _ =>
              add_or_update_loop rest
                (ps.set i ⟨existing.id, existing.url, name', due', existing.estado⟩)
                idx maxId nuevos true
            | none =>
              add_or_update_loop rest
                (ps.set i ⟨some (maxId + 1), existing.url, name', due', existing.estado⟩)
                idx (maxId + 1) nuevos true
          | none =>
            -- unreachable for valid indices; see the doc comment
            add_or_update_loop rest ps idx maxId nuevos cambios
        | none =>
          add_or_update_loop rest
            (ps ++ [⟨some (maxId + 1), some u, some (p.name.getD ""),
                     some (p.due_date.getD ""), some "pendiente"⟩])
            (idxInsert idx u ps.length) (maxId + 1) (nuevos + 1) cambios

/-- Result of one `add_or_update_projects` call: the new in-memory
collection, the returned count `nuevos`, and the number of `_save`
calls performed (the ghost persistence counter). -/
structure UpsertResult where
  projects : List ProjectRecord
  nuevos : Nat
  saves : Nat
deriving DecidableEq, Repr

/-- `PendingProjectStore.add_or_update_projects`
(src/src/pending_store.py lines 91-171): build the URL index and
`max_id`, run the per-item loop, then call `_save` once iff
`nuevos > 0 or cambios_en_existentes`, and return `nuevos`. -/
def add_or_update_projects (projects : List ProjectRecord)
    (new_projects : List IncomingProject) : UpsertResult :=
  let r := add_or_update_loop new_projects projects (initialIndex projects)
    (computeMaxId projects) 0 false
  ⟨r.1, r.2.1, if decide (0 < r.2.1) || r.2.2 then 1 else 0⟩

/-- `get_pending_projects` (lines 177-181): records whose `estado` is
the string `"pendiente"`, in insertion order. -/
def get_pending_projects (projects : List ProjectRecord) : List ProjectRecord :=
  projects.filter (fun p => p.estado = some "pendiente")

/-- `get_project_by_id` (lines 183-192): first record whose `id` field
is the given integer. -/
def get_project_by_id (projects : List ProjectRecord) (project_id : Int) :
    Option ProjectRecord :=
  projects.find? (fun p => p.id = some project_id)

/-- Result of `update_project_state`: mutated collection, the boolean
return value, and the number of `_save` calls. -/
structure SetStateResult where
  projects : List ProjectRecord
  ok : Bool
  saves : Nat
deriving DecidableEq, Repr

/-- `update_project_state` (lines 198-216): walk the records in order;
at the first record whose `id` equals `project_id`, set `estado`, call
`_save` once and return `True`; if none matches, return `False`
without mutating or saving. -/
def update_project_state : List ProjectRecord → Int → String → SetStateResult
  | [], _, _ => ⟨[], false, 0⟩
  | p :: rest, project_id, new_state =>
    if p.id = some project_id then
      ⟨⟨p.id, p.url, p.name, p.due_date, some new_state⟩ :: rest, true, 1⟩
    else
      let r := update_project_state rest project_id new_state
      ⟨p :: r.projects, r.ok, r.saves⟩

end PendingProjectStore

namespace Downloader

/-- Outcome of one `_perform_download_all(project_dir)` attempt, as
observed by the retry loop: a boolean return, or one of the raised
errors.  `raiseDiskFull` stands for `DiskFullError` (errno 28) in
`src/src/project_downloader.py`; in `src/download.py`, where that class
does not exist, the same event is just an unclassified exception. -/
inductive PerformOutcome
  | retTrue
  | retFalse
  | raiseCanceled
  | raiseDiskFull
  | raiseOther
deriving DecidableEq, Repr

/-- How the retry `while` block terminates: a `return` from inside the
loop, falling through the loop (the enclosing function then returns
`None`), or an exception leaving the loop. -/
inductive LoopExit
  | returned (b : Bool)
  | fellThrough
  | excCanceled
  | excDiskFull
  | excOther
deriving DecidableEq, Repr

/-- Error classes raised by the downloader. -/
inductive ExcKind
  | canceled
  | diskFull
  | generic
deriving DecidableEq, Repr

/-- Observable result of a `download_all_for_project` call: a returned
boolean, a returned `None` (the Python function falls off its end when
`max_retries <= 0`), or a propagated exception. -/
inductive DlResult
  | ret (b : Bool)
  | retNone
  | raised (e : ExcKind)
deriving DecidableEq, Repr

/-- The retry block (src/download.py lines 66-103 =
src/src/project_downloader.py lines 76-115, textually identical):
`attempt = 0; while attempt < max_retries: attempt += 1; ...`.
`perform k` is the outcome of the k-th `_perform_download_all` call
(attempts are numbered from 1, mirroring the `attempt` counter).
`remaining` is the fuel `max_retries - attempt`; the second component
of the result is the final value of `attempt`, i.e. the number of
attempts made.  A success or a plain `False` returns immediately; a
`DownloadCanceledError` retries while `attempt < max_retries` and is
re-raised once attempts are exhausted; any other exception leaves the
loop at once. -/
def attemptLoop (perform : Nat → PerformOutcome) : Nat → Nat → LoopExit × Nat
  | attempt, 0 => (.fellThrough, attempt)
  | attempt, remaining + 1 =>
    match perform (attempt + 1) with
    | .retTrue => (.returned true, attempt + 1)
    | .retFalse => (.returned false, attempt + 1)
    | .raiseCanceled =>
      if 0 < remaining then attemptLoop perform (attempt + 1) remaining
      else (.excCanceled, attempt + 1)
    | .raiseDiskFull => (.excDiskFull, attempt + 1)
    | .raiseOther => (.excOther, attempt + 1)

end Downloader

namespace ProjectFilesDownloader

open Downloader

/-- `ProjectFilesDownloader.download_all_for_project`
(src/download.py lines 26-111).  A falsy project URL returns `False`
with no attempt.  Otherwise the retry block runs; the trailing handlers
are `except DownloadCanceledError: raise` and
`except Exception: return False` — this module has no `DiskFullError`
class, so a disk-full error is just an unclassified exception and
yields `False`.  The navigation preamble (`goto`,
`_ensure_files_view`) only logs on failure and is not modelled. -/
def download_all_for_project (project_url : Option String)
    (perform : Nat → PerformOutcome) (max_retries : Nat) : DlResult × Nat :=
  if truthy project_url then
    match attemptLoop perform 0 max_retries with
    | (.returned b, n) => (.ret b, n)
    | (.fellThrough, n) => (.retNone, n)
    | (.excCanceled, n) => (.raised .canceled, n)
    | (.excDiskFull, n) => (.ret false, n)
    | (.excOther, n) => (.ret false, n)
  else (.ret false, 0)

end ProjectFilesDownloader

namespace BuildingConnectedProjectDownloader

open Downloader

/-- `BuildingConnectedProjectDownloader.download_all_for_project`
(src/src/project_downloader.py lines 33-127).  Same retry block, but
the trailing handlers are `except DownloadCanceledError: raise`,
`except DiskFullError: raise` and `except Exception: return False`:
disk-full propagates to the caller. -/
def download_all_for_project (project_url : Option String)
    (perform : Nat → PerformOutcome) (max_retries : Nat) : DlResult × Nat :=
  if truthy project_url then
    match attemptLoop perform 0 max_retries with
    | (.returned b, n) => (.ret b, n)
    | (.fellThrough, n) => (.retNone, n)
    | (.excCanceled, n) => (.raised .canceled, n)
    | (.excDiskFull, n) => (.raised .diskFull, n)
    | (.excOther, n) => (.ret false, n)
  else (.ret false, 0)

end BuildingConnectedProjectDownloader

namespace Phase3

open Downloader

/-- Observable outcome of the metadata phase of
`process_single_project` (navigation to the info page, metadata
extraction, txt write): either it completes with
`metadata_ok = bool(metadata.get("project_name"))`, or some step raises
an exception (caught by the routine's outer `except Exception`). -/
inductive MetaOutcome
  | ok (metadata_ok : Bool)
  | raises
deriving DecidableEq, Repr

/-- What a call to `process_single_project` does for its caller:
return a boolean, or let an exception escape.  The source never
produces `raise` — every handler returns — but the type records that
possibility so propagation claims are statable. -/
inductive ProcResult
  | ret (b : Bool)
  | raise (e : ExcKind)
deriving DecidableEq, Repr

/-- `select_next_project` (src/phase3_main.py lines 21-61): with a
preferred id, return that record iff it exists and its `estado` is
`"pendiente"`; otherwise the first record of `get_pending_projects`
order, or `none` when there is none. -/
def select_next_project (projects : List ProjectRecord)
    (preferred_id : Option Int) : Option ProjectRecord :=
  match preferred_id with
  | some pid =>
    match PendingProjectStore.get_project_by_id projects pid with
    | none => none
    | some project =>
      if project.estado = some "pendiente" then some project else none
  | none => (PendingProjectStore.get_pending_projects projects).head?

/-- `process_single_project` (src/phase3_main.py lines 170-281).
`project_id` falls back to 0 when the record has no integer id.  The
record is first set to `"en-proceso"`; a record without URL reverts to
`"pendiente"` and returns `False`.  Inside the `try`:
a metadata-phase exception hits the outer `except Exception` →
`"pendiente"`, `False`; a `DownloadCanceledError` from the downloader
call hits its dedicated handler → `"error"`, `False`; any other
exception from that call (including a disk-full error) also hits the
outer `except Exception` → `"pendiente"`, `False`; on a plain result,
success of both phases → `"descargado"`, `True`, otherwise →
`"pendiente"`, `False` (a `None` download result is falsy).  Directory
creation/cleanup is filesystem-only and not modelled. -/
def process_single_project (projects : List ProjectRecord)
    (project : ProjectRecord) (meta : MetaOutcome) (dl : DlResult) :
    List ProjectRecord × ProcResult :=
  let project_id : Int := match project.id with | some n => n | none => 0
  let s1 := (PendingProjectStore.update_project_state projects project_id
    "en-proceso").projects
  let project_url : String := project.url.getD ""
  if project_url = "" then
    ((PendingProjectStore.update_project_state s1 project_id "pendiente").projects,
      .ret false)
  else
    match meta with
    | .raises =>
      ((PendingProjectStore.update_project_state s1 project_id "pendiente").projects,
        .ret false)
    | .ok metadata_ok =>
      match dl with
      | .raised .canceled =>
        ((PendingProjectStore.update_project_state s1 project_id "error").projects,
          .ret false)
      | .raised .diskFull =>
        ((PendingProjectStore.update_project_state s1 project_id "pendiente").projects,
          .ret false)
      | .raised .generic =>
        ((PendingProjectStore.update_project_state s1 project_id "pendiente").projects,
          .ret false)
      | .retNone =>
        ((PendingProjectStore.update_project_state s1 project_id "pendiente").projects,
          .ret false)
      | .ret download_ok =>
        if metadata_ok && download_ok then
          ((PendingProjectStore.update_project_state s1 project_id "descargado").projects,
            .ret true)
        else
          ((PendingProjectStore.update_project_state s1 project_id "pendiente").projects,
            .ret false)

end Phase3

/-! ### Specification-side helper definitions (used only in statements and proofs) -/

/-- Pairwise-distinct keys: no two records share a truthy URL. -/
def DistinctKeys (projects : List ProjectRecord) : Prop :=
  List.Pairwise (fun a b => truthy a.url = true → a.url ≠ b.url) projects

/-- Position of the last record (at offset `i`) with url `some u`
(`u` non-empty) — the binding that the `index_by_url` dict
comprehension ends up with. -/
def lastUrlIdx : List ProjectRecord → Nat → String → Option Nat
  | [], _, _ => none
  | p :: rest, i, u =>
    match lastUrlIdx rest (i + 1) u with
    | some j => some j
    | none => if p.url = some u ∧ u ≠ "" then some i else none

/-- Every position recorded in a URL index is below the given length. -/
def IdxValid (idx : List (String × Nat)) (len : Nat) : Prop :=
  ∀ (u : String) (j : Nat), PendingProjectStore.idxLookup idx u = some j → j < len

/-- A position of the result store that holds a store-assigned id:
either appended during the call, or an original record that lacked an
integer id (backfill candidate). -/
def AssignedAt (ps0 : List ProjectRecord) (j : Nat) : Prop :=
  ps0.length ≤ j ∨ ∃ r0, ps0[j]? = some r0 ∧ r0.id = none

/-- Invariant of the `add_or_update_projects` loop, relating the
original collection `ps0` and its starting maximum id `m0` to the
current collection `cur` and current `max_id` value `m`. -/
structure UpsertInv (ps0 : List ProjectRecord) (m0 : Int)
    (cur : List ProjectRecord) (m : Int) : Prop where
  len : ps0.length ≤ cur.length
  mono : m0 ≤ m
  bound : ∀ (j : Nat) (r : ProjectRecord) (n : Int),
    cur[j]? = some r → r.id = some n → n ≤ m
  keep : ∀ (j : Nat) (r : ProjectRecord), ps0[j]? = some r →
    ∃ r' : ProjectRecord, cur[j]? = some r' ∧
      r'.url = r.url ∧ r'.estado = r.estado ∧
      (r'.id = r.id ∨ (r.id = none ∧ ∃ n : Int, r'.id = some n ∧ m0 < n))
  app : ∀ (j : Nat) (r : ProjectRecord), ps0.length ≤ j → cur[j]? = some r →
    ∃ n : Int, r.id = some n ∧ m0 < n
  distinct : ∀ (j k : Nat) (rj rk : ProjectRecord) (nj nk : Int), j ≠ k →
    cur[j]? = some rj → cur[k]? = some rk →
    AssignedAt ps0 j → AssignedAt ps0 k →
    rj.id = some nj → rk.id = some nk → nj ≠ nk
  appIncr : ∀ (j k : Nat) (rj rk : ProjectRecord) (nj nk : Int),
    ps0.length ≤ j → j < k →
    cur[j]? = some rj → cur[k]? = some rk →
    rj.id = some nj → rk.id = some nk → nj < nk

/-! ### Concrete sample data for witnesses and counterexamples -/

namespace Samples

/-- A pending record with id 1 and key "A". -/
def recA : ProjectRecord :=
  ⟨some 1, some "A", some "X", some "", some "pendiente"⟩

/-- Re-ingest of key "A" with a new name and no due date. -/
def itemA2 : IncomingProject := ⟨some "A", some "X2", none⟩

/-- Re-ingest of key "A" supplying neither name nor due date. -/
def itemABare : IncomingProject := ⟨some "A", none, none⟩

/-- An item with a fresh key "B". -/
def itemB : IncomingProject := ⟨some "B", some "NB", some "2025-01-01"⟩

/-- A record stuck in state "en-proceso" (as after a crash), id 5. -/
def recStuck : ProjectRecord :=
  ⟨some 5, some "u", some "S", some "", some "en-proceso"⟩

/-- A pending record with id 1 and a URL, for processing. -/
def recP : ProjectRecord :=
  ⟨some 1, some "https://x/p", some "P", some "", some "pendiente"⟩

/-- A collaborator that raises a cancellation on attempts 1 and 2 and
would succeed from attempt 3 on. -/
def perfCancelTwice : Nat → Downloader.PerformOutcome :=
  fun k => if k ≤ 2 then .raiseCanceled else .retTrue

/-- A collaborator that succeeds at once. -/
def perfTrue : Nat → Downloader.PerformOutcome := fun _ => .retTrue

/-- A collaborator that returns a plain failure at once. -/
def perfFalse : Nat → Downloader.PerformOutcome := fun _ => .retFalse

/-- A collaborator that raises a disk-full error on the first attempt
(and would succeed afterwards, showing no retry happens). -/
def perfDiskFull : Nat → Downloader.PerformOutcome :=
  fun k => if k = 1 then .raiseDiskFull else .retTrue

end Samples

/-! ### Lemmas about `update_project_state` -/

namespace PendingProjectStore

theorem update_estado_cases (ps : List ProjectRecord) (pid : Int) (st : String)
    (j : Nat) (r : ProjectRecord)
    (h : (update_project_state ps pid st).projects[j]? = some r) :
    r.estado = some st ∨ ps[j]? = some r := by
  induction ps generalizing j with
  | nil => simp [update_project_state] at h
  | cons p rest ih =>
    by_cases hp : p.id = some pid
    · simp only [update_project_state, if_pos hp] at h
      cases j with
      | zero =>
        simp only [List.getElem?_cons_zero, Option.some.injEq] at h
        subst h; left; rfl
      | succ j =>
        simp only [List.getElem?_cons_succ] at h
        right; simpa using h
    · simp only [update_project_state, if_neg hp] at h
      cases j with
      | zero =>
        simp only [List.getElem?_cons_zero, Option.some.injEq] at h
        subst h; right; simp
      | succ j =>
        simp only [List.getElem?_cons_succ] at h
        rcases ih j h with h' | h'
        · exact Or.inl h'
        · right; simpa using h'

theorem update_update (ps : List ProjectRecord) (pid : Int) (st1 st2 : String) :
    (update_project_state (update_project_state ps pid st1).projects pid st2).projects =
      (update_project_state ps pid st2).projects := by
  induction ps with
  | nil => rfl
  | cons p rest ih =>
    by_cases hp : p.id = some pid
    · simp [update_project_state, hp]
    · simp only [update_project_state, if_neg hp]
      simpa [update_project_state, hp] using ih

end PendingProjectStore

/-! ### The per-record routine: store shape of every outcome -/

namespace Phase3

theorem process_store_eq (ps : List ProjectRecord) (project : ProjectRecord)
    (meta : MetaOutcome) (dl : Downloader.DlResult) :
    ∃ st, st ≠ "en-proceso" ∧
      (process_single_project ps project meta dl).1 =
        (PendingProjectStore.update_project_state ps
          (match project.id with | some n => n | none => 0) st).projects := by
  by_cases hu : project.url.getD "" = ""
  · exact ⟨"pendiente", by decide,
      by simp [process_single_project, hu, PendingProjectStore.update_update]⟩
  · cases meta with
    | raises =>
      exact ⟨"pendiente", by decide,
        by simp [process_single_project, hu, PendingProjectStore.update_update]⟩
    | ok m =>
      cases dl with
      | raised e =>
        cases e with
        | canceled =>
          exact ⟨"error", by decide,
            by simp [process_single_project, hu, PendingProjectStore.update_update]⟩
        | diskFull =>
          exact ⟨"pendiente", by decide,
            by simp [process_single_project, hu, PendingProjectStore.update_update]⟩
        | generic =>
          exact ⟨"pendiente", by decide,
            by simp [process_single_project, hu, PendingProjectStore.update_update]⟩
      | retNone =>
        exact ⟨"pendiente", by decide,
          by simp [process_single_project, hu, PendingProjectStore.update_update]⟩
      | ret b =>
        by_cases hb : (m && b) = true
        · exact ⟨"descargado", by decide,
            by simp [process_single_project, hu, hb, PendingProjectStore.update_update]⟩
        · exact ⟨"pendiente", by decide,
            by simp [process_single_project, hu, hb, PendingProjectStore.update_update]⟩

end Phase3

/-- C2: after `process_single_project` returns — whatever the metadata
and download outcomes, hence on success, recoverable-skip and abort
alike — no record of the store is left in state `"en-proceso"` unless
it already was in that state before the call: every record the routine
touches resolves to `"pendiente"`, `"descargado"` or `"error"`. -/
theorem batch_never_leaves_record_in_proceso
    (projects : List ProjectRecord) (project : ProjectRecord)
    (meta : Phase3.MetaOutcome) (dl : Downloader.DlResult) (j : Nat)
    (r : ProjectRecord)
    (hget : (Phase3.process_single_project projects project meta dl).1[j]? = some r)
    (hst : r.estado = some "en-proceso") :
    ∃ r0, projects[j]? = some r0 ∧ r0.estado = some "en-proceso" := by
  obtain ⟨st, hne, heq⟩ := Phase3.process_store_eq projects project meta dl
  rw [heq] at hget
  rcases PendingProjectStore.update_estado_cases _ _ _ _ _ hget with h | h
  · rw [hst] at h
    exact absurd (Option.some.inj h.symm) hne
  · exact ⟨r, h, hst⟩

/-- Witness for C2: a concrete run (store containing an unrelated
record stuck in `"en-proceso"`, processed record absent from the
store) where the hypotheses hold, instantiating the theorem. -/
theorem batch_never_leaves_record_in_proceso_witness :
    ∃ r0, ([Samples.recStuck] : List ProjectRecord)[0]? = some r0 ∧
      r0.estado = some "en-proceso" :=
  batch_never_leaves_record_in_proceso [Samples.recStuck] Samples.recP
    (.ok true) (.ret true) 0 Samples.recStuck (by decide) (by decide)

/-- C1 counterexample: with a concrete pending record whose download
raises the disk-full error, `process_single_project` does not let the
exception escape — it returns `False` — whereas the claim requires the
exception to propagate to the caller. -/
theorem diskfull_is_not_propagated_counterexample :
    (Phase3.process_single_project [Samples.recP] Samples.recP
        (.ok true) (.raised .diskFull)).2 = Phase3.ProcResult.ret false ∧
    (Phase3.process_single_project [Samples.recP] Samples.recP
        (.ok true) (.raised .diskFull)).2 ≠
      Phase3.ProcResult.raise Downloader.ExcKind.diskFull := by
  constructor
  · decide
  · decide

/-- C1 amended: no exception at all escapes the per-record routine —
every collaborator outcome, the disk-full error included, is translated
into a boolean result; a disk-full error is handled by the generic
per-record handler, which sets the record back to `"pendiente"` and
returns `False` (it is not given the special propagate-without-touching
treatment the claim describes). -/
theorem batch_catches_every_exception
    (ps : List ProjectRecord) (project : ProjectRecord) :
    (∀ (meta : Phase3.MetaOutcome) (dl : Downloader.DlResult),
      ∃ b, (Phase3.process_single_project ps project meta dl).2 =
        Phase3.ProcResult.ret b) ∧
    (∀ m : Bool, truthy project.url = true →
      Phase3.process_single_project ps project (.ok m) (.raised .diskFull) =
        ((PendingProjectStore.update_project_state ps
            (match project.id with | some n => n | none => 0) "pendiente").projects,
          Phase3.ProcResult.ret false)) := by
  constructor
  · intro meta dl
    by_cases hu : project.url.getD "" = ""
    · exact ⟨false, by simp [Phase3.process_single_project, hu]⟩
    · cases meta with
      | raises => exact ⟨false, by simp [Phase3.process_single_project, hu]⟩
      | ok m =>
        cases dl with
        | raised e =>
          cases e <;> exact ⟨false, by simp [Phase3.process_single_project, hu]⟩
        | retNone => exact ⟨false, by simp [Phase3.process_single_project, hu]⟩
        | ret b =>
          by_cases hb : (m && b) = true
          · exact ⟨true, by simp [Phase3.process_single_project, hu, hb]⟩
          · exact ⟨false, by simp [Phase3.process_single_project, hu, hb]⟩
  · intro m htr
    have hu : ¬ project.url.getD "" = "" := by
      cases h : project.url with
      | none => rw [h] at htr; simp [truthy] at htr
      | some s => rw [h] at htr; simp [truthy] at htr; simpa using htr
    simp [Phase3.process_single_project, hu, PendingProjectStore.update_update]

/-- Witness for the amended C1 at a concrete record. -/
theorem batch_catches_every_exception_witness :
    Phase3.process_single_project [Samples.recP] Samples.recP
        (.ok true) (.raised .diskFull) =
      ((PendingProjectStore.update_project_state [Samples.recP]
          (match Samples.recP.id with | some n => n | none => 0)
          "pendiente").projects,
        Phase3.ProcResult.ret false) :=
  (batch_catches_every_exception [Samples.recP] Samples.recP).2 true (by decide)

/-- C7: with a preferred id the selection routine returns the record
with that id exactly when its state is `"pendiente"` (and nothing
otherwise); with no preferred id it returns the head of the pending
records in insertion order, and returns nothing — terminating the batch
— when no pending record exists. -/
theorem selection_policy (ps : List ProjectRecord) (pid : Int)
    (r : ProjectRecord) :
    (Phase3.select_next_project ps (some pid) = some r ↔
      (PendingProjectStore.get_project_by_id ps pid = some r ∧
        r.estado = some "pendiente")) ∧
    (Phase3.select_next_project ps none =
      (PendingProjectStore.get_pending_projects ps).head?) ∧
    (PendingProjectStore.get_pending_projects ps = [] →
      Phase3.select_next_project ps none = none) := by
  refine ⟨?_, rfl, ?_⟩
  · cases h : PendingProjectStore.get_project_by_id ps pid with
    | none => simp [Phase3.select_next_project, h]
    | some p =>
      by_cases hp : p.estado = some "pendiente"
      · simp only [Phase3.select_next_project, h, if_pos hp]
        constructor
        · intro h'
          cases h'; exact ⟨rfl, hp⟩
        · intro ⟨h1, _⟩
          cases h1; rfl
      · simp only [Phase3.select_next_project, h, if_neg hp]
        constructor
        · intro h'; cases h'
        · intro ⟨h1, h2⟩
          cases h1; exact absurd h2 hp
  · intro h
    simp [Phase3.select_next_project, h]

/-- Witness for C7 at a concrete store. -/
theorem selection_policy_witness :
    Phase3.select_next_project [Samples.recA] (some 1) = some Samples.recA ↔
      (PendingProjectStore.get_project_by_id [Samples.recA] 1 = some Samples.recA ∧
        Samples.recA.estado = some "pendiente") :=
  (selection_policy [Samples.recA] 1 Samples.recA).1

/-- C8: `load` is a total function — every `except` branch of the
source swallows the error — returning the parsed list when the file
holds a well-formed list and the empty collection in every other case
(absent, unreadable, malformed, non-list content). -/
theorem load_never_fails :
    (∀ l, PendingProjectStore.load (.value (.list l)) = l) ∧
    PendingProjectStore.load .absent = [] ∧
    PendingProjectStore.load .unreadable = [] ∧
    PendingProjectStore.load .malformed = [] ∧
    PendingProjectStore.load (.value .nonList) = [] :=
  ⟨fun _ => rfl, rfl, rfl, rfl, rfl⟩

/-- C10: `update_project_state` returns `True` exactly when some record
carries the given integer id; then precisely the first such record has
its state replaced and the store is persisted exactly once; on `False`
the collection is untouched and nothing is persisted. -/
theorem setstate_first_match_or_unchanged (ps : List ProjectRecord)
    (pid : Int) (st : String) :
    ((PendingProjectStore.update_project_state ps pid st).ok = true ↔
      ∃ r ∈ ps, r.id = some pid) ∧
    ((PendingProjectStore.update_project_state ps pid st).ok = false →
      (PendingProjectStore.update_project_state ps pid st).projects = ps ∧
      (PendingProjectStore.update_project_state ps pid st).saves = 0) ∧
    ((PendingProjectStore.update_project_state ps pid st).ok = true →
      ∃ (i : Nat) (r : ProjectRecord), ps[i]? = some r ∧ r.id = some pid ∧
        (∀ (j : Nat) (r' : ProjectRecord), j < i → ps[j]? = some r' →
          r'.id ≠ some pid) ∧
        (PendingProjectStore.update_project_state ps pid st).projects =
          ps.set i ⟨r.id, r.url, r.name, r.due_date, some st⟩ ∧
        (PendingProjectStore.update_project_state ps pid st).saves = 1) := by
  induction ps with
  | nil =>
    refine ⟨by simp [PendingProjectStore.update_project_state], ?_, ?_⟩
    · intro _; exact ⟨rfl, rfl⟩
    · intro h; simp [PendingProjectStore.update_project_state] at h
  | cons p rest ih =>
    by_cases hp : p.id = some pid
    · refine ⟨?_, ?_, ?_⟩
      · simp only [PendingProjectStore.update_project_state, if_pos hp]
        simp only [List.mem_cons]
        exact ⟨fun _ => ⟨p, Or.inl rfl, hp⟩, fun _ => trivial⟩
      · intro h
        simp [PendingProjectStore.update_project_state, hp] at h
      · intro _
        refine ⟨0, p, by simp, hp, ?_, ?_, ?_⟩
        · intro j r' hj _; omega
        · simp [PendingProjectStore.update_project_state, hp]
        · simp [PendingProjectStore.update_project_state, hp]
    · have hok : (PendingProjectStore.update_project_state (p :: rest) pid st).ok =
          (PendingProjectStore.update_project_state rest pid st).ok := by
        simp [PendingProjectStore.update_project_state, hp]
      refine ⟨?_, ?_, ?_⟩
      · rw [hok, ih.1]
        simp only [List.mem_cons]
        constructor
        · rintro ⟨r, hr, hid⟩; exact ⟨r, Or.inr hr, hid⟩
        · rintro ⟨r, hr | hr, hid⟩
          · subst hr; exact absurd hid hp
          · exact ⟨r, hr, hid⟩
      · intro h
        rw [hok] at h
        obtain ⟨h1, h2⟩ := ih.2.1 h
        constructor
        · simp [PendingProjectStore.update_project_state, hp, h1]
        · simp [PendingProjectStore.update_project_state, hp, h2]
      · intro h
        rw [hok] at h
        obtain ⟨i, r, hi, hid, hfirst, hproj, hsave⟩ := ih.2.2 h
        refine ⟨i + 1, r, by simpa using hi, hid, ?_, ?_, ?_⟩
        · intro j r' hj hj'
          cases j with
          | zero =>
            simp only [List.getElem?_cons_zero, Option.some.injEq] at hj'
            subst hj'; exact hp
          | succ j =>
            simp only [List.getElem?_cons_succ] at hj'
            exact hfirst j r' (by omega) hj'
        · simp [PendingProjectStore.update_project_state, hp, hproj]
        · simp [PendingProjectStore.update_project_state, hp, hsave]

/-- Witness for C10 at a concrete store. -/
theorem setstate_first_match_or_unchanged_witness :
    (PendingProjectStore.update_project_state [Samples.recA] 1 "descargado").ok
        = true ↔ ∃ r ∈ [Samples.recA], r.id = some 1 :=
  (setstate_first_match_or_unchanged [Samples.recA] 1 "descargado").1

/-- C3: the bounded retry policy of the downloader used by Phase 3.
With `max_retries = 2` a collaborator whose first two attempts raise
the cancellation error — even one that would succeed on a third — makes
the call re-raise the cancellation after exactly 2 attempts; a
successful attempt makes the retry loop return success at once with no
further attempt; a plain `False` result without a raised error makes it
return failure at once with no retry. -/
theorem retry_budget_and_immediate_returns :
    (∀ (perform : Nat → Downloader.PerformOutcome) (url : Option String),
      truthy url = true →
      perform 1 = .raiseCanceled → perform 2 = .raiseCanceled →
      perform 3 = .retTrue →
      ProjectFilesDownloader.download_all_for_project url perform 2 =
        (.raised .canceled, 2)) ∧
    (∀ (perform : Nat → Downloader.PerformOutcome) (attempt r : Nat),
      perform (attempt + 1) = .retTrue →
      Downloader.attemptLoop perform attempt (r + 1) =
        (.returned true, attempt + 1)) ∧
    (∀ (perform : Nat → Downloader.PerformOutcome) (attempt r : Nat),
      perform (attempt + 1) = .retFalse →
      Downloader.attemptLoop perform attempt (r + 1) =
        (.returned false, attempt + 1)) ∧
    (∀ (perform : Nat → Downloader.PerformOutcome) (url : Option String)
        (mr : Nat), truthy url = true → 1 ≤ mr → perform 1 = .retTrue →
      ProjectFilesDownloader.download_all_for_project url perform mr =
        (.ret true, 1)) ∧
    (∀ (perform : Nat → Downloader.PerformOutcome) (url : Option String)
        (mr : Nat), truthy url = true → 1 ≤ mr → perform 1 = .retFalse →
      ProjectFilesDownloader.download_all_for_project url perform mr =
        (.ret false, 1)) := by
  refine ⟨?_, ?_, ?_, ?_, ?_⟩
  · intro perform url hu h1 h2 _
    simp [ProjectFilesDownloader.download_all_for_project, hu,
      Downloader.attemptLoop, h1, h2]
  · intro perform attempt r h
    simp [Downloader.attemptLoop, h]
  · intro perform attempt r h
    simp [Downloader.attemptLoop, h]
  · intro perform url mr hu hmr h1
    cases mr with
    | zero => omega
    | succ r =>
      simp [ProjectFilesDownloader.download_all_for_project, hu,
        Downloader.attemptLoop, h1]
  · intro perform url mr hu hmr h1
    cases mr with
    | zero => omega
    | succ r =>
      simp [ProjectFilesDownloader.download_all_for_project, hu,
        Downloader.attemptLoop, h1]

/-- Witness for C3: the three scenarios run on concrete collaborators. -/
theorem retry_budget_and_immediate_returns_witness :
    ProjectFilesDownloader.download_all_for_project (some "u")
        Samples.perfCancelTwice 2 = (.raised .canceled, 2) ∧
    ProjectFilesDownloader.download_all_for_project (some "u")
        Samples.perfTrue 2 = (.ret true, 1) ∧
    ProjectFilesDownloader.download_all_for_project (some "u")
        Samples.perfFalse 2 = (.ret false, 1) :=
  ⟨retry_budget_and_immediate_returns.1 Samples.perfCancelTwice (some "u")
      (by decide) (by decide) (by decide) (by decide),
   retry_budget_and_immediate_returns.2.2.2.1 Samples.perfTrue (some "u") 2
      (by decide) (by decide) (by decide),
   retry_budget_and_immediate_returns.2.2.2.2 Samples.perfFalse (some "u") 2
      (by decide) (by decide) (by decide)⟩

/-- C4: a collaborator that raises the disk-full error on its first
attempt makes the downloader re-raise it immediately: exactly one
attempt is made, whatever `max_retries` was configured. -/
theorem diskfull_reraised_first_attempt
    (perform : Nat → Downloader.PerformOutcome) (url : Option String)
    (mr : Nat) (hu : truthy url = true) (hmr : 1 ≤ mr)
    (h1 : perform 1 = .raiseDiskFull) :
    BuildingConnectedProjectDownloader.download_all_for_project url perform mr =
      (.raised .diskFull, 1) := by
  cases mr with
  | zero => omega
  | succ r =>
    simp [BuildingConnectedProjectDownloader.download_all_for_project, hu,
      Downloader.attemptLoop, h1]

/-- Witness for C4 with `max_retries = 5`, showing the single attempt
is independent of the retry budget. -/
theorem diskfull_reraised_first_attempt_witness :
    BuildingConnectedProjectDownloader.download_all_for_project (some "u")
        Samples.perfDiskFull 5 = (.raised .diskFull, 1) :=
  diskfull_reraised_first_attempt Samples.perfDiskFull (some "u") 5
    (by decide) (by decide) (by decide)

/-! ### The URL index: lookup characterisation -/

namespace PendingProjectStore

theorem idxLookup_idxInsert_self (idx : List (String × Nat)) (k : String)
    (v : Nat) : idxLookup (idxInsert idx k v) k = some v := by
  induction idx with
  | nil => simp [idxInsert, idxLookup]
  | cons kv rest ih =>
    obtain ⟨k', v'⟩ := kv
    by_cases h : k' = k
    · simp [idxInsert, idxLookup, h]
    · simp [idxInsert, idxLookup, h, ih]

theorem idxLookup_idxInsert_ne (idx : List (String × Nat)) (k u : String)
    (v : Nat) (h : u ≠ k) :
    idxLookup (idxInsert idx k v) u = idxLookup idx u := by
  have hku : ¬ k = u := fun hh => h hh.symm
  induction idx with
  | nil =>
    simp only [idxInsert, idxLookup]
    rw [if_neg hku]
  | cons kv rest ih =>
    obtain ⟨k', v'⟩ := kv
    by_cases hk : k' = k
    · subst hk
      simp only [idxInsert, if_pos rfl, idxLookup]
      rw [if_neg hku, if_neg hku]
    · simp only [idxInsert, if_neg hk, idxLookup]
      by_cases hu : k' = u
      · rw [if_pos hu, if_pos hu]
      · rw [if_neg hu, if_neg hu]
        exact ih

theorem idxLookup_initialIndexAux (l : List ProjectRecord) :
    ∀ (i : Nat) (acc : List (String × Nat)) (u : String),
      idxLookup (initialIndexAux l i acc) u =
        match lastUrlIdx l i u with
        | some j => some j
        | none => idxLookup acc u := by
  induction l with
  | nil => intro i acc u; simp [initialIndexAux, lastUrlIdx]
  | cons p rest ih =>
    intro i acc u
    simp only [initialIndexAux]
    rw [ih]
    cases hrest : lastUrlIdx rest (i + 1) u with
    | some j => simp [lastUrlIdx, hrest]
    | none =>
      simp only [lastUrlIdx, hrest]
      by_cases hc : p.url = some u ∧ u ≠ ""
      · rw [if_pos hc, hc.1]
        dsimp only
        rw [if_neg hc.2]
        exact idxLookup_idxInsert_self acc u i
      · rw [if_neg hc]
        cases hurl : p.url with
        | none => rfl
        | some u' =>
          dsimp only
          by_cases he : u' = ""
          · rw [if_pos he]
          · rw [if_neg he]
            have hu : u ≠ u' := by
              intro e
              exact hc ⟨by rw [hurl, e], by rw [e]; exact he⟩
            exact idxLookup_idxInsert_ne acc u' u i hu

theorem lastUrlIdx_sound (l : List ProjectRecord) :
    ∀ (i j : Nat) (u : String), lastUrlIdx l i u = some j →
      ∃ (k : Nat) (r : ProjectRecord), l[k]? = some r ∧ r.url = some u ∧
        u ≠ "" ∧ j = i + k := by
  induction l with
  | nil => intro i j u h; simp [lastUrlIdx] at h
  | cons p rest ih =>
    intro i j u h
    simp only [lastUrlIdx] at h
    cases hrest : lastUrlIdx rest (i + 1) u with
    | some j2 =>
      rw [hrest] at h
      dsimp only at h
      injection h with hj2
      subst hj2
      obtain ⟨k, r, hk, hu, hne, hj⟩ := ih (i + 1) _ u hrest
      exact ⟨k + 1, r, by simpa using hk, hu, hne, by omega⟩
    | none =>
      rw [hrest] at h
      dsimp only at h
      by_cases hc : p.url = some u ∧ u ≠ ""
      · rw [if_pos hc] at h
        injection h with hj2
        exact ⟨0, p, by simp, hc.1, hc.2, by omega⟩
      · rw [if_neg hc] at h
        cases h

theorem lastUrlIdx_complete (l : List ProjectRecord) :
    ∀ (i k : Nat) (r : ProjectRecord) (u : String), l[k]? = some r →
      r.url = some u → u ≠ "" → (lastUrlIdx l i u).isSome := by
  induction l with
  | nil => intro i k r u h; simp at h
  | cons p rest ih =>
    intro i k r u hk hu hne
    simp only [lastUrlIdx]
    cases hrest : lastUrlIdx rest (i + 1) u with
    | some j => simp
    | none =>
      dsimp only
      cases k with
      | zero =>
        simp only [List.getElem?_cons_zero, Option.some.injEq] at hk
        subst hk
        rw [if_pos ⟨hu, hne⟩]
        simp
      | succ k =>
        simp only [List.getElem?_cons_succ] at hk
        have := ih (i + 1) k r u hk hu hne
        rw [hrest] at this
        simp at this

theorem distinctKeys_unique (ps : List ProjectRecord)
    (hd : DistinctKeys ps) (i k : Nat) (r r' : ProjectRecord) (u : String)
    (hi : ps[i]? = some r) (hk : ps[k]? = some r')
    (hur : r.url = some u) (hur' : r'.url = some u) (hne : u ≠ "") :
    i = k := by
  by_contra hik
  rw [DistinctKeys, List.pairwise_iff_getElem] at hd
  obtain ⟨hilt, hieq⟩ := List.getElem?_eq_some_iff.1 hi
  obtain ⟨hklt, hkeq⟩ := List.getElem?_eq_some_iff.1 hk
  rcases Nat.lt_or_ge i k with h | h
  · have := hd i k hilt hklt h
    rw [hieq, hkeq] at this
    have htr : truthy r.url = true := by simp [hur, truthy, hne]
    exact this htr (by rw [hur, hur'])
  · have hki : k < i := by omega
    have := hd k i hklt hilt hki
    rw [hieq, hkeq] at this
    have htr : truthy r'.url = true := by simp [hur', truthy, hne]
    exact this htr (by rw [hur, hur'])

theorem initialIndex_lookup_eq (ps : List ProjectRecord)
    (hd : DistinctKeys ps) (i : Nat) (r : ProjectRecord) (u : String)
    (hi : ps[i]? = some r) (hur : r.url = some u) (hne : u ≠ "") :
    idxLookup (initialIndex ps) u = some i := by
  rw [initialIndex, idxLookup_initialIndexAux]
  cases hlast : lastUrlIdx ps 0 u with
  | none =>
    have := lastUrlIdx_complete ps 0 i r u hi hur hne
    rw [hlast] at this
    simp at this
  | some j =>
    obtain ⟨k, r', hk, hur', hne', hj⟩ := lastUrlIdx_sound ps 0 j u hlast
    have hki : k = i := distinctKeys_unique ps hd k i r' r u hk hi hur' hur hne
    have hji : j = i := by omega
    simp [hji]

theorem add_loop_len (items : List IncomingProject) :
    ∀ (ps : List ProjectRecord) (idx : List (String × Nat)) (m : Int)
      (n : Nat) (c : Bool),
      (add_or_update_loop items ps idx m n c).1.length + n =
        ps.length + (add_or_update_loop items ps idx m n c).2.1 := by
  induction items with
  | nil => intro ps idx m n c; simp [add_or_update_loop, Nat.add_comm]
  | cons p rest ih =>
    intro ps idx m n c
    simp only [add_or_update_loop]
    cases hu : p.url with
    | none => exact ih ps idx m n c
    | some u =>
      dsimp only
      by_cases he : u = ""
      · rw [if_pos he]; exact ih ps idx m n c
      · rw [if_neg he]
        cases hl : idxLookup idx u with
        | none =>
          dsimp only
          have h := ih (ps ++ [⟨some (m + 1), some u, some (p.name.getD ""),
            some (p.due_date.getD ""), some "pendiente"⟩])
            (idxInsert idx u ps.length) (m + 1) (n + 1) c
          simp only [List.length_append, List.length_cons, List.length_nil] at h
          omega
        | some i =>
          dsimp only
          cases hg : ps[i]? with
          | none => exact ih ps idx m n c
          | some existing =>
            dsimp only
            cases hid : existing.id with
            | some d =>
              dsimp only
              have h := ih (ps.set i ⟨existing.id, existing.url,
                (if truthy p.name then p.name else existing.name),
                (if truthy p.due_date then p.due_date else existing.due_date),
                existing.estado⟩) idx m n true
              simp only [List.length_set] at h
              rw [hid] at h
              exact h
            | none =>
              dsimp only
              have h := ih (ps.set i ⟨some (m + 1), existing.url,
                (if truthy p.name then p.name else existing.name),
                (if truthy p.due_date then p.due_date else existing.due_date),
                existing.estado⟩) idx (m + 1) n true
              simp only [List.length_set] at h
              exact h

theorem initialIndex_valid (ps : List ProjectRecord) :
    IdxValid (initialIndex ps) ps.length := by
  intro u j h
  rw [initialIndex, idxLookup_initialIndexAux] at h
  cases hlast : lastUrlIdx ps 0 u with
  | none => rw [hlast] at h; simp [idxLookup] at h
  | some j2 =>
    rw [hlast] at h
    dsimp only at h
    injection h with hj2
    subst hj2
    obtain ⟨k, r, hk, _, _, hj⟩ := lastUrlIdx_sound ps 0 _ u hlast
    obtain ⟨hlt, -⟩ := List.getElem?_eq_some_iff.1 hk
    omega

/-- One loop step of a single-item batch on an existing key: the
record at the key's position is updated in place, nothing is appended,
and `cambios_en_existentes` is set. -/
theorem add_loop_single_existing (ps : List ProjectRecord)
    (hd : DistinctKeys ps) (i : Nat) (r : ProjectRecord) (u : String)
    (p : IncomingProject) (hi : ps[i]? = some r) (hur : r.url = some u)
    (hne : u ≠ "") (hp : p.url = some u) :
    add_or_update_loop [p] ps (initialIndex ps) (computeMaxId ps) 0 false =
      (ps.set i
        ⟨(match r.id with
          | some d => some d
          | none => some (computeMaxId ps + 1)), r.url,
         (if truthy p.name then p.name else r.name),
         (if truthy p.due_date then p.due_date else r.due_date),
         r.estado⟩, 0, true) := by
  have hlook := initialIndex_lookup_eq ps hd i r u hi hur hne
  simp only [add_or_update_loop]
  rw [hp]
  dsimp only
  rw [if_neg hne, hlook]
  dsimp only
  rw [hi]
  dsimp only
  cases hid : r.id with
  | some d => simp [add_or_update_loop]
  | none => simp [add_or_update_loop]

end PendingProjectStore

/-- C5: in a store with pairwise-distinct keys, re-ingesting an
existing key creates no second record, leaves the record's integer id
and its state untouched, updates `name`/`due_date` in place exactly
when supplied (truthy), leaves every other record unchanged, and
returns 0; in general the return value of `add_or_update_projects`
counts exactly the appended records. -/
theorem upsert_existing_key_updates_in_place :
    (∀ (ps : List ProjectRecord) (items : List IncomingProject),
      (PendingProjectStore.add_or_update_projects ps items).projects.length =
        ps.length + (PendingProjectStore.add_or_update_projects ps items).nuevos) ∧
    (∀ (ps : List ProjectRecord) (i : Nat) (r : ProjectRecord) (u : String)
        (nid : Int) (p : IncomingProject),
      DistinctKeys ps → ps[i]? = some r → r.url = some u → u ≠ "" →
      p.url = some u →
      (PendingProjectStore.add_or_update_projects ps [p]).nuevos = 0 ∧
      (PendingProjectStore.add_or_update_projects ps [p]).projects.length =
        ps.length ∧
      (∃ r', (PendingProjectStore.add_or_update_projects ps [p]).projects[i]? =
          some r' ∧
        r'.estado = r.estado ∧ r'.url = r.url ∧
        (r.id = some nid → r'.id = some nid) ∧
        (truthy p.name = true → r'.name = p.name) ∧
        (truthy p.name = false → r'.name = r.name) ∧
        (truthy p.due_date = true → r'.due_date = p.due_date) ∧
        (truthy p.due_date = false → r'.due_date = r.due_date)) ∧
      (∀ j : Nat, j ≠ i →
        (PendingProjectStore.add_or_update_projects ps [p]).projects[j]? =
          ps[j]?)) := by
  constructor
  · intro ps items
    have h := PendingProjectStore.add_loop_len items ps
      (PendingProjectStore.initialIndex ps)
      (PendingProjectStore.computeMaxId ps) 0 false
    simp only [PendingProjectStore.add_or_update_projects]
    omega
  · intro ps i r u nid p hd hi hur hne hp
    have hlt : i < ps.length := (List.getElem?_eq_some_iff.1 hi).1
    have hstep := PendingProjectStore.add_loop_single_existing ps hd i r u p
      hi hur hne hp
    have hres : PendingProjectStore.add_or_update_projects ps [p] =
        ⟨ps.set i
          ⟨(match r.id with
            | some d => some d
            | none => some (PendingProjectStore.computeMaxId ps + 1)), r.url,
           (if truthy p.name then p.name else r.name),
           (if truthy p.due_date then p.due_date else r.due_date),
           r.estado⟩, 0, 1⟩ := by
      simp [PendingProjectStore.add_or_update_projects, hstep]
    rw [hres]
    refine ⟨rfl, by simp, ?_, ?_⟩
    · refine ⟨_, List.getElem?_set_self (by simpa using hlt), rfl, rfl, ?_, ?_, ?_, ?_, ?_⟩
      · intro hid; simp [hid]
      · intro h; simp [h]
      · intro h; simp [h]
      · intro h; simp [h]
      · intro h; simp [h]
    · intro j hj
      exact List.getElem?_set_ne (fun e => hj e.symm)

/-- Witness for C5: the spec scenario — store `[(id 1, key "A",
pending)]`, ingest `[(key "A", name "X2")]`. -/
theorem upsert_existing_key_updates_in_place_witness :
    (PendingProjectStore.add_or_update_projects [Samples.recA]
        [Samples.itemA2]).nuevos = 0 ∧
    (PendingProjectStore.add_or_update_projects [Samples.recA]
        [Samples.itemA2]).projects.length =
      ([Samples.recA] : List ProjectRecord).length ∧
    (∃ r', (PendingProjectStore.add_or_update_projects [Samples.recA]
          [Samples.itemA2]).projects[0]? = some r' ∧
      r'.estado = Samples.recA.estado ∧ r'.url = Samples.recA.url ∧
      (Samples.recA.id = some 1 → r'.id = some 1) ∧
      (truthy Samples.itemA2.name = true → r'.name = Samples.itemA2.name) ∧
      (truthy Samples.itemA2.name = false → r'.name = Samples.recA.name) ∧
      (truthy Samples.itemA2.due_date = true →
        r'.due_date = Samples.itemA2.due_date) ∧
      (truthy Samples.itemA2.due_date = false →
        r'.due_date = Samples.recA.due_date)) ∧
    (∀ j : Nat, j ≠ 0 →
      (PendingProjectStore.add_or_update_projects [Samples.recA]
          [Samples.itemA2]).projects[j]? =
        ([Samples.recA] : List ProjectRecord)[j]?) :=
  upsert_existing_key_updates_in_place.2 [Samples.recA] 0 Samples.recA "A" 1
    Samples.itemA2 (by simp [DistinctKeys]) (by decide) (by decide)
    (by decide) (by decide)

/-! ### C9: when does a batch upsert persist? -/

namespace PendingProjectStore

theorem add_loop_saved_iff (items : List IncomingProject) :
    ∀ (ps : List ProjectRecord) (idx : List (String × Nat)) (m : Int)
      (n : Nat) (c : Bool), IdxValid idx ps.length →
      ((decide (0 < (add_or_update_loop items ps idx m n c).2.1)) ||
          (add_or_update_loop items ps idx m n c).2.2) =
        ((decide (0 < n)) || c || items.any (fun p => truthy p.url)) := by
  induction items with
  | nil => intro ps idx m n c _; simp [add_or_update_loop]
  | cons p rest ih =>
    intro ps idx m n c hv
    simp only [add_or_update_loop, List.any_cons]
    cases hu : p.url with
    | none =>
      rw [ih ps idx m n c hv]
      simp [truthy]
    | some u =>
      dsimp only
      by_cases he : u = ""
      · rw [if_pos he]
        rw [ih ps idx m n c hv]
        subst he
        simp [truthy]
      · rw [if_neg he]
        have htr : truthy (some u) = true := by simp [truthy, he]
        cases hl : idxLookup idx u with
        | none =>
          dsimp only
          have hv' : IdxValid (idxInsert idx u ps.length)
              (ps ++ [(⟨some (m + 1), some u, some (p.name.getD ""),
                some (p.due_date.getD ""), some "pendiente"⟩ : ProjectRecord)]).length := by
            intro u' j' h'
            by_cases huu : u' = u
            · subst huu
              rw [idxLookup_idxInsert_self] at h'
              injection h' with e
              simp [← e, List.length_append]
            · rw [idxLookup_idxInsert_ne idx u u' ps.length huu] at h'
              have := hv u' j' h'
              simp only [List.length_append, List.length_cons, List.length_nil]
              omega
          rw [ih _ _ _ _ _ hv']
          simp [htr]
        | some i =>
          dsimp only
          cases hg : ps[i]? with
          | none =>
            have h1 := hv u i hl
            have h2 := List.getElem?_eq_none_iff.1 hg
            omega
          | some existing =>
            dsimp only
            have hv' : ∀ (x : ProjectRecord),
                IdxValid idx (ps.set i x).length := by
              intro x u' j' h'
              rw [List.length_set]
              exact hv u' j' h'
            cases hid : existing.id with
            | some d =>
              dsimp only
              rw [ih _ _ _ _ _ (hv' _)]
              simp [htr]
            | none =>
              dsimp only
              rw [ih _ _ _ _ _ (hv' _)]
              simp [htr]

end PendingProjectStore

/-- C9 counterexample: re-ingesting an item that matches an existing
key but supplies neither name nor due date (and the record already has
an id) changes nothing — yet the store is persisted: `saves = 1` where
the claim requires the file untouched. -/
theorem upsert_writes_without_change_counterexample :
    (PendingProjectStore.add_or_update_projects [Samples.recA]
        [Samples.itemABare]).projects = [Samples.recA] ∧
    (PendingProjectStore.add_or_update_projects [Samples.recA]
        [Samples.itemABare]).nuevos = 0 ∧
    (PendingProjectStore.add_or_update_projects [Samples.recA]
        [Samples.itemABare]).saves = 1 := by
  refine ⟨by decide, by decide, by decide⟩

/-- C9 amended: the persisted file is written at most once per
`add_or_update_projects` call (the single `_save` sits after the item
loop), and it is written if and only if some incoming item carries a
truthy key — the code sets `cambios_en_existentes` on every key match,
even when no field of the matched record is altered. -/
theorem upsert_saves_once_iff_key_present (ps : List ProjectRecord)
    (items : List IncomingProject) :
    (PendingProjectStore.add_or_update_projects ps items).saves ≤ 1 ∧
    ((PendingProjectStore.add_or_update_projects ps items).saves = 1 ↔
      items.any (fun p => truthy p.url) = true) := by
  have h := PendingProjectStore.add_loop_saved_iff items ps
    (PendingProjectStore.initialIndex ps) (PendingProjectStore.computeMaxId ps)
    0 false (PendingProjectStore.initialIndex_valid ps)
  simp only [show (decide (0 < 0) : Bool) = false from rfl, Bool.false_or,
    Bool.or_false] at h
  simp only [PendingProjectStore.add_or_update_projects]
  rw [h]
  cases hany : items.any (fun p => truthy p.url) <;> simp [hany]

/-! ### C6: id assignment — freshness, distinctness, stability -/

namespace PendingProjectStore

theorem computeMaxIdAux_le (l : List ProjectRecord) :
    ∀ m : Int, m ≤ computeMaxIdAux m l := by
  induction l with
  | nil => intro m; exact le_refl m
  | cons p rest ih =>
    intro m
    simp only [computeMaxIdAux]
    refine le_trans ?_ (ih _)
    cases hid : p.id with
    | none => exact le_refl m
    | some pid =>
      dsimp only
      by_cases h : m < pid
      · rw [if_pos h]; omega
      · rw [if_neg h]

theorem computeMaxIdAux_ge (l : List ProjectRecord) :
    ∀ (m : Int) (j : Nat) (r : ProjectRecord) (n : Int),
      l[j]? = some r → r.id = some n → n ≤ computeMaxIdAux m l := by
  induction l with
  | nil => intro m j r n h _; simp at h
  | cons p rest ih =>
    intro m j r n h hid
    simp only [computeMaxIdAux]
    cases j with
    | zero =>
      simp only [List.getElem?_cons_zero, Option.some.injEq] at h
      subst h
      rw [hid]
      dsimp only
      refine le_trans ?_ (computeMaxIdAux_le rest _)
      by_cases hm : m < n
      · rw [if_pos hm]
      · rw [if_neg hm]; omega
    | succ j =>
      simp only [List.getElem?_cons_succ] at h
      exact ih _ j r n h hid

theorem computeMaxId_ge (ps : List ProjectRecord) (j : Nat)
    (r : ProjectRecord) (n : Int) (h : ps[j]? = some r)
    (hid : r.id = some n) : n ≤ computeMaxId ps :=
  computeMaxIdAux_ge ps 0 j r n h hid

theorem inv_init (ps : List ProjectRecord) :
    UpsertInv ps (computeMaxId ps) ps (computeMaxId ps) := by
  constructor
  · exact le_refl _
  · exact le_refl _
  · intro j r n h hid; exact computeMaxId_ge ps j r n h hid
  · intro j r h; exact ⟨r, h, rfl, rfl, Or.inl rfl⟩
  · intro j r hj h
    have := List.getElem?_eq_none (l := ps) (n := j) hj
    rw [this] at h; cases h
  · intro j k rj rk nj nk hjk hj hk haj hak hidj hidk
    rcases haj with h | ⟨r0, h0, hr0⟩
    · have := List.getElem?_eq_none (l := ps) (n := j) h
      rw [this] at hj; cases hj
    · rw [h0] at hj
      injection hj with e
      rw [← e, hr0] at hidj
      cases hidj
  · intro j k rj rk nj nk hj hjk hgj hgk hidj hidk
    have := List.getElem?_eq_none (l := ps) (n := j) hj
    rw [this] at hgj; cases hgj

theorem inv_congr (ps0 : List ProjectRecord) (m0 : Int)
    (cur cur' : List ProjectRecord) (m : Int)
    (inv : UpsertInv ps0 m0 cur m) (hlen : cur'.length = cur.length)
    (hpt : ∀ j : Nat, (cur'[j]?).map (fun r => (r.id, r.url, r.estado)) =
      (cur[j]?).map (fun r => (r.id, r.url, r.estado))) :
    UpsertInv ps0 m0 cur' m := by
  have hget : ∀ (j : Nat) (r : ProjectRecord), cur'[j]? = some r →
      ∃ r2, cur[j]? = some r2 ∧ r.id = r2.id ∧ r.url = r2.url ∧
        r.estado = r2.estado := by
    intro j r h
    have hj := hpt j
    rw [h] at hj
    cases h2 : cur[j]? with
    | none => rw [h2] at hj; simp at hj
    | some r2 =>
      rw [h2] at hj
      simp only [Option.map_some', Option.some.injEq, Prod.mk.injEq] at hj
      exact ⟨r2, rfl, hj.1, hj.2.1, hj.2.2⟩
  have hget' : ∀ (j : Nat) (r2 : ProjectRecord), cur[j]? = some r2 →
      ∃ r', cur'[j]? = some r' ∧ r'.id = r2.id ∧ r'.url = r2.url ∧
        r'.estado = r2.estado := by
    intro j r2 h
    have hj := hpt j
    rw [h] at hj
    cases h2 : cur'[j]? with
    | none => rw [h2] at hj; simp at hj
    | some r' =>
      rw [h2] at hj
      simp only [Option.map_some', Option.some.injEq, Prod.mk.injEq] at hj
      exact ⟨r', rfl, hj.1, hj.2.1, hj.2.2⟩
  constructor
  · rw [hlen]; exact inv.len
  · exact inv.mono
  · intro j r n h hid
    obtain ⟨r2, h2, eid, -, -⟩ := hget j r h
    rw [eid] at hid
    exact inv.bound j r2 n h2 hid
  · intro j r h0
    obtain ⟨r2, h2, hurl, hest, hdisj⟩ := inv.keep j r h0
    obtain ⟨r', h', eid, eurl, eest⟩ := hget' j r2 h2
    refine ⟨r', h', by rw [eurl, hurl], by rw [eest, hest], ?_⟩
    rcases hdisj with e | ⟨hnone, n, hn, hm⟩
    · exact Or.inl (by rw [eid, e])
    · exact Or.inr ⟨hnone, n, by rw [eid, hn], hm⟩
  · intro j r hj h
    obtain ⟨r2, h2, eid, -, -⟩ := hget j r h
    obtain ⟨n, hn, hm⟩ := inv.app j r2 hj h2
    exact ⟨n, by rw [eid, hn], hm⟩
  · intro j k rj rk nj nk hjk hj hk haj hak hidj hidk
    obtain ⟨rj2, hj2, ejd, -, -⟩ := hget j rj hj
    obtain ⟨rk2, hk2, ekd, -, -⟩ := hget k rk hk
    rw [ejd] at hidj
    rw [ekd] at hidk
    exact inv.distinct j k rj2 rk2 nj nk hjk hj2 hk2 haj hak hidj hidk
  · intro j k rj rk nj nk hj hjk hgj hgk hidj hidk
    obtain ⟨rj2, hj2, ejd, -, -⟩ := hget j rj hgj
    obtain ⟨rk2, hk2, ekd, -, -⟩ := hget k rk hgk
    rw [ejd] at hidj
    rw [ekd] at hidk
    exact inv.appIncr j k rj2 rk2 nj nk hj hjk hj2 hk2 hidj hidk

theorem inv_set_update (ps0 : List ProjectRecord) (m0 : Int)
    (cur : List ProjectRecord) (m : Int) (i : Nat) (ex : ProjectRecord)
    (nm du : Option String) (inv : UpsertInv ps0 m0 cur m)
    (hi : cur[i]? = some ex) :
    UpsertInv ps0 m0 (cur.set i ⟨ex.id, ex.url, nm, du, ex.estado⟩) m := by
  refine inv_congr ps0 m0 cur _ m inv (List.length_set cur i _) ?_
  intro j
  by_cases hj : j = i
  · subst hj
    have hlt : j < cur.length := (List.getElem?_eq_some_iff.1 hi).1
    rw [List.getElem?_set_self (by simpa using hlt), hi]
    rfl
  · rw [List.getElem?_set_ne (fun e => hj e.symm)]

theorem inv_backfill (ps0 : List ProjectRecord) (m0 : Int)
    (cur : List ProjectRecord) (m : Int) (i : Nat) (ex : ProjectRecord)
    (nm du : Option String) (inv : UpsertInv ps0 m0 cur m)
    (hi : cur[i]? = some ex) (hexid : ex.id = none) :
    UpsertInv ps0 m0
      (cur.set i ⟨some (m + 1), ex.url, nm, du, ex.estado⟩) (m + 1) := by
  have hlt : i < cur.length := (List.getElem?_eq_some_iff.1 hi).1
  have hset_i : (cur.set i
      (⟨some (m + 1), ex.url, nm, du, ex.estado⟩ : ProjectRecord))[i]? =
      some ⟨some (m + 1), ex.url, nm, du, ex.estado⟩ :=
    List.getElem?_set_self (by simpa using hlt)
  have hi0 : i < ps0.length := by
    by_contra hc
    push_neg at hc
    obtain ⟨n, hn, -⟩ := inv.app i ex hc hi
    rw [hexid] at hn
    cases hn
  have hr0 : ∃ r0, ps0[i]? = some r0 ∧ r0.id = none := by
    cases h0 : ps0[i]? with
    | none =>
      have := List.getElem?_eq_none_iff.1 h0
      omega
    | some r0 =>
      obtain ⟨r2, h2, -, -, hdisj⟩ := inv.keep i r0 h0
      rw [hi] at h2
      injection h2 with e2
      refine ⟨r0, rfl, ?_⟩
      rcases hdisj with e | ⟨hnone, -⟩
      · rw [← e, ← e2]
        exact hexid
      · exact hnone
  constructor
  · rw [List.length_set]; exact inv.len
  · exact le_trans inv.mono (by omega)
  · intro j r n h hid
    by_cases hj : j = i
    · subst hj
      rw [hset_i] at h
      injection h with e
      rw [← e] at hid
      simp only at hid
      injection hid with e2
      omega
    · rw [List.getElem?_set_ne (fun e => hj e.symm)] at h
      have := inv.bound j r n h hid
      omega
  · intro j r h0
    by_cases hj : j = i
    · subst hj
      obtain ⟨r0, h0', hr0id⟩ := hr0
      rw [h0] at h0'
      injection h0' with e0
      obtain ⟨r2, h2, hurl, hest, -⟩ := inv.keep j r h0
      rw [hi] at h2
      injection h2 with e2
      refine ⟨⟨some (m + 1), ex.url, nm, du, ex.estado⟩, hset_i, ?_, ?_, ?_⟩
      · rw [← e2] at hurl
        exact hurl
      · rw [← e2] at hest
        exact hest
      · refine Or.inr ⟨by rw [e0, hr0id], m + 1, rfl, ?_⟩
        have := inv.mono
        omega
    · obtain ⟨r2, h2, hurl, hest, hdisj⟩ := inv.keep j r h0
      rw [← List.getElem?_set_ne (l := cur)
        (a := (⟨some (m + 1), ex.url, nm, du, ex.estado⟩ : ProjectRecord))
        (fun e => hj e.symm)] at h2
      exact ⟨r2, h2, hurl, hest, hdisj⟩
  · intro j r hj h
    by_cases hji : j = i
    · subst hji; omega
    · rw [List.getElem?_set_ne (fun e => hji e.symm)] at h
      obtain ⟨n, hn, hm⟩ := inv.app j r hj h
      exact ⟨n, hn, hm⟩
  · intro j k rj rk nj nk hjk hj hk haj hak hidj hidk
    by_cases hji : j = i
    · rw [hji] at hj
      rw [hset_i] at hj
      injection hj with e
      rw [← e] at hidj
      simp only at hidj
      injection hidj with e2
      have hki : k ≠ i := fun hc => hjk (hji.trans hc.symm)
      rw [List.getElem?_set_ne (fun e' => hki e'.symm)] at hk
      have := inv.bound k rk nk hk hidk
      omega
    · rw [List.getElem?_set_ne (fun e' => hji e'.symm)] at hj
      by_cases hki : k = i
      · subst hki
        rw [hset_i] at hk
        injection hk with e
        rw [← e] at hidk
        simp only at hidk
        injection hidk with e2
        have := inv.bound j rj nj hj hidj
        omega
      · rw [List.getElem?_set_ne (fun e' => hki e'.symm)] at hk
        exact inv.distinct j k rj rk nj nk hjk hj hk haj hak hidj hidk
  · intro j k rj rk nj nk hj hjk hgj hgk hidj hidk
    have hji : j ≠ i := by omega
    have hki : k ≠ i := by omega
    rw [List.getElem?_set_ne (fun e' => hji e'.symm)] at hgj
    rw [List.getElem?_set_ne (fun e' => hki e'.symm)] at hgk
    exact inv.appIncr j k rj rk nj nk hj hjk hgj hgk hidj hidk

theorem inv_append (ps0 : List ProjectRecord) (m0 : Int)
    (cur : List ProjectRecord) (m : Int) (e : ProjectRecord)
    (inv : UpsertInv ps0 m0 cur m) (he : e.id = some (m + 1)) :
    UpsertInv ps0 m0 (cur ++ [e]) (m + 1) := by
  have hgetcat : ∀ (j : Nat) (r : ProjectRecord), (cur ++ [e])[j]? = some r →
      (j < cur.length ∧ cur[j]? = some r) ∨ (j = cur.length ∧ r = e) := by
    intro j r h
    rcases Nat.lt_trichotomy j cur.length with hlt | heq | hgt
    · left
      rw [List.getElem?_append_left hlt] at h
      exact ⟨hlt, h⟩
    · right
      subst heq
      rw [List.getElem?_concat_length] at h
      injection h with h'
      exact ⟨rfl, h'.symm⟩
    · exfalso
      have : (cur ++ [e])[j]? = none := by
        apply List.getElem?_eq_none
        simp only [List.length_append, List.length_cons, List.length_nil]
        omega
      rw [this] at h
      cases h
  constructor
  · refine le_trans inv.len ?_
    simp only [List.length_append, List.length_cons, List.length_nil]
    omega
  · exact le_trans inv.mono (by omega)
  · intro j r n h hid
    rcases hgetcat j r h with ⟨-, h'⟩ | ⟨-, h'⟩
    · have := inv.bound j r n h' hid
      omega
    · subst h'
      rw [he] at hid
      injection hid with e2
      omega
  · intro j r h0
    obtain ⟨r2, h2, hurl, hest, hdisj⟩ := inv.keep j r h0
    have hjlt : j < cur.length := by
      have h1 := (List.getElem?_eq_some_iff.1 h2).1
      exact h1
    exact ⟨r2, by rw [List.getElem?_append_left hjlt]; exact h2,
      hurl, hest, hdisj⟩
  · intro j r hj h
    rcases hgetcat j r h with ⟨-, h'⟩ | ⟨-, h'⟩
    · obtain ⟨n, hn, hm⟩ := inv.app j r hj h'
      exact ⟨n, hn, hm⟩
    · subst h'
      refine ⟨m + 1, he, ?_⟩
      have := inv.mono
      omega
  · intro j k rj rk nj nk hjk hj hk haj hak hidj hidk
    rcases hgetcat j rj hj with ⟨hjlt, hj'⟩ | ⟨hjeq, hj'⟩
    · rcases hgetcat k rk hk with ⟨hklt, hk'⟩ | ⟨hkeq, hk'⟩
      · exact inv.distinct j k rj rk nj nk hjk hj' hk' haj hak hidj hidk
      · subst hk'
        rw [he] at hidk
        injection hidk with e2
        have := inv.bound j rj nj hj' hidj
        omega
    · subst hj'
      rw [he] at hidj
      injection hidj with e2
      rcases hgetcat k rk hk with ⟨hklt, hk'⟩ | ⟨hkeq, hk'⟩
      · have := inv.bound k rk nk hk' hidk
        omega
      · exact absurd (hjeq.trans hkeq.symm) hjk
  · intro j k rj rk nj nk hj hjk hgj hgk hidj hidk
    rcases hgetcat k rk hgk with ⟨hklt, hk'⟩ | ⟨hkeq, hk'⟩
    · have hjlt : j < cur.length := by omega
      rw [List.getElem?_append_left hjlt] at hgj
      exact inv.appIncr j k rj rk nj nk hj hjk hgj hk' hidj hidk
    · subst hk'
      rw [he] at hidk
      injection hidk with e2
      have hjlt : j < cur.length := by omega
      rw [List.getElem?_append_left hjlt] at hgj
      have := inv.bound j rj nj hgj hidj
      omega

theorem add_loop_inv (items : List IncomingProject) :
    ∀ (ps0 ps : List ProjectRecord) (idx : List (String × Nat)) (m0 m : Int)
      (n : Nat) (c : Bool), UpsertInv ps0 m0 ps m →
      ∃ m', UpsertInv ps0 m0 (add_or_update_loop items ps idx m n c).1 m' := by
  induction items with
  | nil => intro ps0 ps idx m0 m n c inv; exact ⟨m, inv⟩
  | cons p rest ih =>
    intro ps0 ps idx m0 m n c inv
    simp only [add_or_update_loop]
    cases hu : p.url with
    | none => exact ih ps0 ps idx m0 m n c inv
    | some u =>
      dsimp only
      by_cases he : u = ""
      · rw [if_pos he]; exact ih ps0 ps idx m0 m n c inv
      · rw [if_neg he]
        cases hl : idxLookup idx u with
        | none =>
          dsimp only
          exact ih ps0 _ _ m0 (m + 1) (n + 1) c
            (inv_append ps0 m0 ps m _ inv rfl)
        | some i =>
          dsimp only
          cases hg : ps[i]? with
          | none =>
            dsimp only
            exact ih ps0 ps idx m0 m n c inv
          | some existing =>
            dsimp only
            cases hid : existing.id with
            | some d =>
              dsimp only
              have hstep := inv_set_update ps0 m0 ps m i existing
                (if truthy p.name then p.name else existing.name)
                (if truthy p.due_date then p.due_date else existing.due_date)
                inv hg
              rw [hid] at hstep
              exact ih ps0 _ idx m0 m n true hstep
            | none =>
              dsimp only
              exact ih ps0 _ idx m0 (m + 1) n true
                (inv_backfill ps0 m0 ps m i existing
                  (if truthy p.name then p.name else existing.name)
                  (if truthy p.due_date then p.due_date else existing.due_date)
                  inv hg hid)

end PendingProjectStore

/-- C6: ids handed out by `add_or_update_projects` (to appended records
and as backfill for records lacking an integer id) are strictly greater
than every integer id present at the start of the call; assigned ids
are pairwise distinct (never reused) and, along appended positions,
strictly increasing; integer ids already present are never disturbed;
and reloading the persisted collection preserves the maximum id. -/
theorem upsert_assigned_ids_fresh_distinct (ps : List ProjectRecord)
    (items : List IncomingProject) :
    (∀ (j : Nat) (r : ProjectRecord) (n : Int), ps[j]? = some r →
      r.id = some n →
      ∃ r', (PendingProjectStore.add_or_update_projects ps items).projects[j]? =
        some r' ∧ r'.id = some n) ∧
    (∀ (j : Nat) (r' : ProjectRecord) (n : Int),
      (PendingProjectStore.add_or_update_projects ps items).projects[j]? =
        some r' →
      AssignedAt ps j → r'.id = some n →
      ∀ (k : Nat) (rk : ProjectRecord) (nk : Int), ps[k]? = some rk →
        rk.id = some nk → nk < n) ∧
    (∀ (j k : Nat) (rj rk : ProjectRecord) (nj nk : Int), j ≠ k →
      (PendingProjectStore.add_or_update_projects ps items).projects[j]? =
        some rj →
      (PendingProjectStore.add_or_update_projects ps items).projects[k]? =
        some rk →
      AssignedAt ps j → AssignedAt ps k →
      rj.id = some nj → rk.id = some nk → nj ≠ nk) ∧
    (∀ (j k : Nat) (rj rk : ProjectRecord) (nj nk : Int), ps.length ≤ j →
      j < k →
      (PendingProjectStore.add_or_update_projects ps items).projects[j]? =
        some rj →
      (PendingProjectStore.add_or_update_projects ps items).projects[k]? =
        some rk →
      rj.id = some nj → rk.id = some nk → nj < nk) ∧
    (PendingProjectStore.computeMaxId (PendingProjectStore.load
        (.value (.list
          (PendingProjectStore.add_or_update_projects ps items).projects))) =
      PendingProjectStore.computeMaxId
        (PendingProjectStore.add_or_update_projects ps items).projects) := by
  obtain ⟨m', inv⟩ := PendingProjectStore.add_loop_inv items ps ps
    (PendingProjectStore.initialIndex ps)
    (PendingProjectStore.computeMaxId ps)
    (PendingProjectStore.computeMaxId ps) 0 false
    (PendingProjectStore.inv_init ps)
  have hproj : (PendingProjectStore.add_or_update_projects ps items).projects =
      (PendingProjectStore.add_or_update_loop items ps
        (PendingProjectStore.initialIndex ps)
        (PendingProjectStore.computeMaxId ps) 0 false).1 := rfl
  refine ⟨?_, ?_, ?_, ?_, rfl⟩
  · intro j r n hj hid
    rw [hproj]
    obtain ⟨r', h', -, -, hdisj⟩ := inv.keep j r hj
    rcases hdisj with e | ⟨hnone, -⟩
    · exact ⟨r', h', by rw [e, hid]⟩
    · rw [hnone] at hid; cases hid
  · intro j r' n hj ha hid k rk nk hk hidk
    rw [hproj] at hj
    have hnk : nk ≤ PendingProjectStore.computeMaxId ps :=
      PendingProjectStore.computeMaxId_ge ps k rk nk hk hidk
    have hm0n : PendingProjectStore.computeMaxId ps < n := by
      rcases ha with hlen | ⟨r0, h0, hr0⟩
      · obtain ⟨n2, hn2, hm⟩ := inv.app j r' hlen hj
        rw [hid] at hn2
        injection hn2 with e
        omega
      · obtain ⟨r2, h2, -, -, hdisj⟩ := inv.keep j r0 h0
        rw [hj] at h2
        injection h2 with e2
        rw [e2] at hid
        rcases hdisj with e | ⟨-, n2, hn2, hm⟩
        · rw [e, hr0] at hid
          cases hid
        · rw [hn2] at hid
          injection hid with e3
          omega
    omega
  · intro j k rj rk nj nk hjk hj hk haj hak hidj hidk
    rw [hproj] at hj hk
    exact inv.distinct j k rj rk nj nk hjk hj hk haj hak hidj hidk
  · intro j k rj rk nj nk hlen hjk hj hk hidj hidk
    rw [hproj] at hj hk
    exact inv.appIncr j k rj rk nj nk hlen hjk hj hk hidj hidk

/-- Witness for C6 at a concrete call: the existing id 1 is untouched
by an ingest that appends a fresh record. -/
theorem upsert_assigned_ids_fresh_distinct_witness :
    ∃ r', (PendingProjectStore.add_or_update_projects [Samples.recA]
        [Samples.itemB]).projects[0]? = some r' ∧ r'.id = some 1 :=
  (upsert_assigned_ids_fresh_distinct [Samples.recA] [Samples.itemB]).1
    0 Samples.recA 1 (by decide) (by decide)

/-- Witness for the amended C9 on a concrete call. -/
theorem upsert_saves_once_iff_key_present_witness :
    (PendingProjectStore.add_or_update_projects [Samples.recA]
        [Samples.itemABare]).saves ≤ 1 ∧
    ((PendingProjectStore.add_or_update_projects [Samples.recA]
        [Samples.itemABare]).saves = 1 ↔
      ([Samples.itemABare] : List IncomingProject).any
        (fun p => truthy p.url) = true) :=
  upsert_saves_once_iff_key_present [Samples.recA] [Samples.itemABare]
